import Mathlib

/-!
Verification of the memory-curation core of AI_Vector_Memory
(`memory_curator.py` and the `auto_curate` route of `memory_curation_api.py`).

The embedding mirrors the Python source.  A stored memory is an `Entry`
(an id, a text body and a metadata record); the Chroma collection is a
`Store`, a list of entries in collection order.  Python truthiness of an
optional string metadata value is `truthy`.  Stateful collection calls
(`delete`, `update`, `add`, snapshot writes) are made explicit: every
mutating operation returns the new store together with a trace of the
side-effecting events it issued, in order.  External capabilities that
the curator merely calls (MD5, `datetime.fromisoformat`, `json.dumps` /
`json.loads`) are parameters of the corresponding definitions.
Python floats in the quality scorer are modelled as rationals; all the
literals involved are exact decimals.
-/

namespace AIVectorMemory

/-- Metadata record of a memory; recognized keys of the Python metadata
dict, each optional.  `technologies` holds the raw JSON text, as stored. -/
structure Metadata where
  title : Option String := none
  technologies : Option String := none
  complexity : Option String := none
  date : Option String := none
  session_date : Option String := none
  source : Option String := none
  last_accessed : Option String := none
  enhanced_at : Option String := none
  consolidated_from : Option String := none
  consolidated_at : Option String := none
  original_count : Option Nat := none
  deriving Repr, DecidableEq

/-- One stored memory: `(id, document, metadata)` triple of the collection. -/
structure Entry where
  id : String
  content : String
  metadata : Metadata
  deriving Repr, DecidableEq

/-- The collection, in collection order. -/
abbrev Store := List Entry

/-- Python truthiness of an optional string value: `None` and the empty
string are falsy. -/
def truthy : Option String → Bool
  | none => false
  | some s => s != ""

/-- `metadata.get(\x7bdate\x7d) or metadata.get(\x7bsession_date\x7d)`, then the
`if date_str:` guard: the first truthy of the two date fields. -/
def dateStrOf (md : Metadata) : Option String :=
  if truthy md.date then md.date
  else if truthy md.session_date then md.session_date
  else none

/-- Substring search over character lists: does `needle` occur
contiguously in the haystack? -/
def containsSeq (needle : List Char) : List Char → Bool
  | [] => needle.isEmpty
  | c :: rest => needle.isPrefixOf (c :: rest) || containsSeq needle rest

/-- The Python `in` operator on strings. -/
def strContains (hay needle : String) : Bool :=
  containsSeq needle.data hay.data

/-- Whether the content holds a fenced code-block marker:
the triple-backtick `in content` check of the source. -/
def hasCodeBlock (content : String) : Bool :=
  strContains content "```"

/-- The content-length part of the quality score:
`+0.2 if len > 500 elif +0.1 if len > 200`. -/
def contentLengthScore (n : Nat) : ℚ :=
  if 500 < n then 0.2 else if 200 < n then 0.1 else 0

/-- The title signal of the quality score: title truthy and not the
`Untitled` placeholder. -/
def titleSignal (md : Metadata) : Bool :=
  truthy md.title && md.title != some "Untitled"

/-- Python `min` on two rationals (the first argument on ties). -/
def pyMin (a b : ℚ) : ℚ :=
  if a ≤ b then a else b

lemma pyMin_le_right (a b : ℚ) : pyMin a b ≤ b := by
  unfold pyMin
  split_ifs with h
  · exact h
  · exact le_refl b

lemma le_pyMin {a b c : ℚ} (h1 : c ≤ a) (h2 : c ≤ b) : c ≤ pyMin a b := by
  unfold pyMin
  split_ifs <;> assumption

lemma pyMin_mono_left {a a' b : ℚ} (h : a ≤ a') :
    pyMin a b ≤ pyMin a' b := by
  unfold pyMin
  split_ifs <;> linarith

/-- `_calculate_memory_quality_score` of `memory_curator.py`: additive
signals, clamped to 1. -/
def calculateMemoryQualityScore (memory : Entry) : ℚ :=
  let metadata := memory.metadata
  let content := memory.content
  let score : ℚ :=
    contentLengthScore content.length
    + (if titleSignal metadata then 0.2 else 0)
    + (if truthy metadata.technologies then 0.15 else 0)
    + (if truthy metadata.complexity then 0.1 else 0)
    + (if truthy metadata.date || truthy metadata.session_date then 0.1 else 0)
    + (if truthy metadata.source then 0.1 else 0)
    + (if hasCodeBlock content then 0.15 else 0)
  pyMin score 1

lemma contentLengthScore_nonneg (n : Nat) : 0 ≤ contentLengthScore n := by
  unfold contentLengthScore
  split <;> norm_num
  split <;> norm_num

lemma contentLengthScore_mono {a b : Nat} (h : a ≤ b) :
    contentLengthScore a ≤ contentLengthScore b := by
  unfold contentLengthScore
  split_ifs <;> first | omega | norm_num

lemma signal_if_nonneg (b : Bool) (x : ℚ) (hx : 0 ≤ x) :
    0 ≤ (if b then x else 0) := by
  cases b <;> simp [hx]

lemma signal_if_mono {b c : Bool} (h : b = true → c = true) (x : ℚ)
    (hx : 0 ≤ x) : (if b then x else 0) ≤ (if c then x else 0) := by
  cases b
  · cases c <;> simp [hx]
  · simp [h rfl]

lemma rawScore_nonneg (m : Entry) :
    0 ≤ contentLengthScore m.content.length
      + (if titleSignal m.metadata then 0.2 else 0)
      + (if truthy m.metadata.technologies then 0.15 else 0)
      + (if truthy m.metadata.complexity then 0.1 else 0)
      + (if truthy m.metadata.date || truthy m.metadata.session_date then 0.1 else 0)
      + (if truthy m.metadata.source then 0.1 else 0)
      + (if hasCodeBlock m.content then 0.15 else 0) := by
  have h0 := contentLengthScore_nonneg m.content.length
  have h1 := signal_if_nonneg (titleSignal m.metadata) (0.2 : ℚ) (by norm_num)
  have h2 := signal_if_nonneg (truthy m.metadata.technologies) (0.15 : ℚ) (by norm_num)
  have h3 := signal_if_nonneg (truthy m.metadata.complexity) (0.1 : ℚ) (by norm_num)
  have h4 := signal_if_nonneg (truthy m.metadata.date || truthy m.metadata.session_date)
    (0.1 : ℚ) (by norm_num)
  have h5 := signal_if_nonneg (truthy m.metadata.source) (0.1 : ℚ) (by norm_num)
  have h6 := signal_if_nonneg (hasCodeBlock m.content) (0.15 : ℚ) (by norm_num)
  linarith

/-- C1.  The quality score of every memory lies in `[0,1]`, and the score
is monotone in the recognized signals: whenever `m2` has every signal
`m1` has (content at least as long, and each boolean signal implied),
the score does not decrease.  Adding any single recognized signal to a
memory is an instance of this ordering. -/
theorem qualityScore_bounded_and_monotone (m1 m2 : Entry)
    (hlen : m1.content.length ≤ m2.content.length)
    (htitle : titleSignal m1.metadata = true → titleSignal m2.metadata = true)
    (htech : truthy m1.metadata.technologies = true →
      truthy m2.metadata.technologies = true)
    (hcx : truthy m1.metadata.complexity = true →
      truthy m2.metadata.complexity = true)
    (hdate : (truthy m1.metadata.date || truthy m1.metadata.session_date) = true →
      (truthy m2.metadata.date || truthy m2.metadata.session_date) = true)
    (hsrc : truthy m1.metadata.source = true → truthy m2.metadata.source = true)
    (hcode : hasCodeBlock m1.content = true → hasCodeBlock m2.content = true) :
    (∀ m : Entry, 0 ≤ calculateMemoryQualityScore m ∧
      calculateMemoryQualityScore m ≤ 1) ∧
    calculateMemoryQualityScore m1 ≤ calculateMemoryQualityScore m2 := by
  constructor
  · intro m
    unfold calculateMemoryQualityScore
    constructor
    · exact le_pyMin (rawScore_nonneg m) (by norm_num)
    · exact pyMin_le_right _ _
  · unfold calculateMemoryQualityScore
    refine pyMin_mono_left ?_
    have h0 := contentLengthScore_mono hlen
    have h1 := signal_if_mono htitle (0.2 : ℚ) (by norm_num)
    have h2 := signal_if_mono htech (0.15 : ℚ) (by norm_num)
    have h3 := signal_if_mono hcx (0.1 : ℚ) (by norm_num)
    have h4 := signal_if_mono hdate (0.1 : ℚ) (by norm_num)
    have h5 := signal_if_mono hsrc (0.1 : ℚ) (by norm_num)
    have h6 := signal_if_mono hcode (0.15 : ℚ) (by norm_num)
    linarith

/-- Witness for C1 at concrete memories: an empty memory against one that
gains the title signal. -/
theorem qualityScore_bounded_and_monotone_witness :
    calculateMemoryQualityScore ⟨"a", "", {}⟩ ≤
      calculateMemoryQualityScore ⟨"a", "", { title := some "Setup notes" }⟩ :=
  (qualityScore_bounded_and_monotone ⟨"a", "", {}⟩
    ⟨"a", "", { title := some "Setup notes" }⟩
    (by decide) (by decide) (by decide) (by decide) (by decide) (by decide)
    (by decide)).2

/-- One record of an archive snapshot / stale report: the
`\x7bid, date, title\x7d` objects the curator serializes. -/
structure ArchiveRec where
  id : String
  date : String
  title : String
  deriving Repr, DecidableEq

/-- A side-effecting call issued to the embedding store or filesystem,
in program order. -/
inductive Ev where
  | deleteId (id : String)
  | updateMeta (id : String) (md : Metadata)
  | addEntry (e : Entry)
  | writeSnapshot (path : String) (records : List ArchiveRec)
  deriving Repr, DecidableEq

/-- The duplicate-marking scan of `deduplicate_memories`: walk the
collection, record the first id per content hash, mark every later
same-hash id for removal.  `seen` is the set of hashes met so far
(the keys of the Python `content_map`). -/
def scanDuplicates (hash : String → String) : Store → List String → List String
  | [], _ => []
  | e :: rest, seen =>
    if hash e.content ∈ seen then e.id :: scanDuplicates hash rest seen
    else scanDuplicates hash rest (hash e.content :: seen)

/-- The per-id deletion loop: `collection.delete(ids=[doc_id])` for each
marked id in order. -/
def deleteIds (ids : List String) (s : Store) : Store :=
  ids.foldl (fun st i => st.filter (fun e => decide (e.id ≠ i))) s

/-- Return payload of `deduplicate_memories`. -/
structure DedupResult where
  duplicates_found : Nat
  removed : Nat
  dry_run : Bool
  duplicate_ids : List String
  deriving Repr, DecidableEq

/-- `deduplicate_memories` of `memory_curator.py`, with `hash`
standing for MD5 hex digest.  Returns the payload, the store after the
call and the trace of store mutations issued. -/
def deduplicateMemories (hash : String → String) (dryRun : Bool) (s : Store) :
    DedupResult × Store × List Ev :=
  if s.isEmpty then (⟨0, 0, dryRun, []⟩, s, [])
  else
    let dups := scanDuplicates hash s []
    if !dryRun && !dups.isEmpty then
      (⟨dups.length, dups.length, dryRun, dups.take 10⟩, deleteIds dups s,
        dups.map Ev.deleteId)
    else
      (⟨dups.length, if dryRun then 0 else dups.length, dryRun, dups.take 10⟩,
        s, [])

lemma scanDuplicates_sublist (hash : String → String) (s : Store) :
    ∀ seen, List.Sublist (scanDuplicates hash s seen) (s.map Entry.id) := by
  induction s with
  | nil => intro seen; simp [scanDuplicates]
  | cons e rest ih =>
    intro seen
    unfold scanDuplicates
    split
    · exact (ih seen).cons₂ e.id
    · exact (ih _).cons e.id

lemma not_mem_scanDuplicates (hash : String → String) (s : Store) (i : String)
    (h : i ∉ s.map Entry.id) : ∀ seen, i ∉ scanDuplicates hash s seen := by
  intro seen hmem
  exact h ((scanDuplicates_sublist hash s seen).subset hmem)

lemma firstSeen_not_mem_scanDuplicates (hash : String → String)
    (l₁ : Store) (e : Entry) (l₂ : Store) :
    ∀ seen, e.id ∉ (l₁ ++ l₂).map Entry.id →
    (∀ e' ∈ l₁, hash e'.content ≠ hash e.content) →
    hash e.content ∉ seen →
    e.id ∉ scanDuplicates hash (l₁ ++ e :: l₂) seen := by
  induction l₁ with
  | nil =>
    intro seen _ _ hseen
    simp only [List.nil_append] at *
    unfold scanDuplicates
    rw [if_neg hseen]
    exact not_mem_scanDuplicates hash l₂ e.id (by simp_all) _
  | cons e' rest ih =>
    intro seen hid hh hseen
    have hne : e.id ≠ e'.id := by simp at hid; tauto
    have hid' : e.id ∉ (rest ++ l₂).map Entry.id := by simp at hid ⊢; tauto
    have hh' : ∀ x ∈ rest, hash x.content ≠ hash e.content := by
      intro x hx; exact hh x (List.mem_cons_of_mem _ hx)
    simp only [List.cons_append]
    unfold scanDuplicates
    split
    · intro hmem
      rcases List.mem_cons.mp hmem with h1 | h2
      · exact hne h1
      · exact ih seen hid' hh' hseen h2
    · refine ih _ hid' hh' ?_
      intro hmem
      rcases List.mem_cons.mp hmem with h1 | h2
      · exact hh e' (List.mem_cons_self e' rest) h1.symm
      · exact hseen h2

lemma mem_deleteIds (ids : List String) (s : Store) (e : Entry)
    (he : e ∈ s) (hid : e.id ∉ ids) : e ∈ deleteIds ids s := by
  induction ids generalizing s with
  | nil => exact he
  | cons i rest ih =>
    have h1 : e.id ≠ i := by simp at hid; tauto
    have h2 : e.id ∉ rest := by simp at hid; tauto
    exact ih (s.filter (fun x => decide (x.id ≠ i)))
      (List.mem_filter.mpr ⟨he, by simp [h1]⟩) h2

lemma deleteIds_eq_filter (ids : List String) (s : Store) :
    deleteIds ids s = s.filter (fun e => decide (e.id ∉ ids)) := by
  induction ids generalizing s with
  | nil => simp [deleteIds]
  | cons i rest ih =>
    show deleteIds rest (s.filter (fun e => decide (e.id ≠ i))) = _
    rw [ih, List.filter_filter]
    refine List.filter_congr ?_
    intro e _
    simp [List.mem_cons, not_or, Bool.and_comm]

lemma filter_mem_of_sublist {l' l : List String} (h : List.Sublist l' l)
    (hn : l.Nodup) : l.filter (fun x => decide (x ∈ l')) = l' := by
  induction h with
  | slnil => simp
  | @cons k₁ k₂ a h ih =>
    have hn' : k₂.Nodup := (List.nodup_cons.mp hn).2
    have ha : a ∉ k₂ := (List.nodup_cons.mp hn).1
    have ha' : a ∉ k₁ := fun hmem => ha (h.subset hmem)
    simp only [List.filter_cons]
    rw [if_neg (by simpa using ha')]
    exact ih hn'
  | @cons₂ k₁ k₂ a h ih =>
    have hn' : k₂.Nodup := (List.nodup_cons.mp hn).2
    have ha : a ∉ k₂ := (List.nodup_cons.mp hn).1
    simp only [List.filter_cons]
    rw [if_pos (by simp)]
    congr 1
    rw [show k₂.filter (fun x => decide (x ∈ a :: k₁))
        = k₂.filter (fun x => decide (x ∈ k₁)) from ?_]
    · exact ih hn'
    · refine List.filter_congr ?_
      intro x hx
      have hxa : x ≠ a := fun hxe => ha (hxe ▸ hx)
      simp [List.mem_cons, hxa]

lemma length_filter_split (p : Entry → Prop) [DecidablePred p] (s : Store) :
    (s.filter (fun e => decide (p e))).length
      + (s.filter (fun e => decide (¬ p e))).length = s.length := by
  induction s with
  | nil => simp
  | cons e rest ih =>
    by_cases hp : p e
    · simp only [List.filter_cons, decide_eq_true_eq]
      rw [if_pos (by simpa using hp), if_neg (by simpa using hp)]
      simp only [List.length_cons]
      omega
    · simp only [List.filter_cons, decide_eq_true_eq]
      rw [if_neg (by simpa using hp), if_pos (by simpa using hp)]
      simp only [List.length_cons]
      omega

lemma length_deleteIds (dups : List String) (s : Store)
    (h : List.Sublist dups (s.map Entry.id)) (hn : (s.map Entry.id).Nodup) :
    (deleteIds dups s).length + dups.length = s.length := by
  rw [deleteIds_eq_filter]
  have hcount : (s.filter (fun e => decide (e.id ∈ dups))).length = dups.length := by
    have h1 : (s.filter (fun e => decide (e.id ∈ dups))).length
        = ((s.map Entry.id).filter (fun x => decide (x ∈ dups))).length := by
      rw [← List.countP_eq_length_filter, ← List.countP_eq_length_filter,
        List.countP_map]
      rfl
    rw [h1, filter_mem_of_sublist h hn]
  have hsplit := length_filter_split (fun e => e.id ∈ dups) s
  omega

/-- C2.  `deduplicate_memories(dry_run=true)` issues no store mutation and
leaves the store unchanged; `deduplicate_memories(dry_run=false)`, all
per-id deletes succeeding (deletes in the model always do), shrinks the
store by exactly the reported `duplicates_found`, and every memory that is
the first in collection order with its content hash survives. -/
theorem deduplicateMemories_frame_and_count (hash : String → String) (s : Store)
    (hn : (s.map Entry.id).Nodup) :
    ((deduplicateMemories hash true s).2.1 = s ∧
      (deduplicateMemories hash true s).2.2 = []) ∧
    ((deduplicateMemories hash false s).2.1.length
        + (deduplicateMemories hash false s).1.duplicates_found = s.length) ∧
    (∀ l₁ e l₂, s = l₁ ++ e :: l₂ →
      (∀ e' ∈ l₁, hash e'.content ≠ hash e.content) →
      e ∈ (deduplicateMemories hash false s).2.1) := by
  refine ⟨?_, ?_, ?_⟩
  · unfold deduplicateMemories
    split
    · exact ⟨rfl, rfl⟩
    · simp
  · unfold deduplicateMemories
    split
    · rename_i hempty
      rw [List.isEmpty_iff] at hempty
      simp [hempty]
    · simp only [Bool.not_false, Bool.true_and]
      split
      · rename_i hne
        exact length_deleteIds _ s (scanDuplicates_sublist hash s []) hn
      · rename_i hne
        simp only [Bool.not_eq_true', Bool.not_eq_false, List.isEmpty_iff] at hne
        simp [hne]
  · intro l₁ e l₂ hs hh
    have hid : e.id ∉ (l₁ ++ l₂).map Entry.id := by
      subst hs
      simp only [List.map_append, List.map_cons] at hn
      have hd := List.disjoint_of_nodup_append hn
      have h2 := (List.nodup_append.mp hn).2.1
      simp only [List.map_append]
      intro hmem
      rcases List.mem_append.mp hmem with h | h
      · exact hd h (List.mem_cons_self _ _)
      · exact (List.nodup_cons.mp h2).1 h
    have hscan : e.id ∉ scanDuplicates hash s [] := by
      subst hs
      exact firstSeen_not_mem_scanDuplicates hash l₁ e l₂ [] hid hh (by simp)
    have hes : e ∈ s := by subst hs; simp
    unfold deduplicateMemories
    split
    · exact hes
    · simp only [Bool.not_false, Bool.true_and]
      split
      · exact mem_deleteIds _ s e hes hscan
      · exact hes

/-- Witness for C2 at a concrete three-memory store with one duplicated
content. -/
theorem deduplicateMemories_frame_and_count_witness :
    ("b" : String) ≠ "a" ∧
    (deduplicateMemories id false
      [⟨"a", "x", {}⟩, ⟨"b", "x", {}⟩, ⟨"c", "y", {}⟩]).2.1.length
      + (deduplicateMemories id false
      [⟨"a", "x", {}⟩, ⟨"b", "x", {}⟩, ⟨"c", "y", {}⟩]).1.duplicates_found = 3 := by
  refine ⟨by decide, ?_⟩
  exact (deduplicateMemories_frame_and_count id
    [⟨"a", "x", {}⟩, ⟨"b", "x", {}⟩, ⟨"c", "y", {}⟩] (by decide)).2.1

/-- A reported near-duplicate pair. -/
structure NearDup where
  memory1 : String
  memory2 : String
  similarity : ℚ
  deriving Repr, DecidableEq

/-- Return value of `_find_duplicates`.  The Python function initializes
`duplicates = []` (a bare list) and only in some paths reassigns it to the
`\x7bexact, near\x7d` dict, so its result is one of two shapes. -/
inductive DupReport where
  | bareList : DupReport
  | mapping (exact : List (List String)) (near : List NearDup) : DupReport
  deriving Repr, DecidableEq

/-- Insert an id into the bucket of its hash, preserving first-seen
bucket order (Python `defaultdict(list)` keyed in insertion order). -/
def addToBuckets (k v : String) : List (String × List String) →
    List (String × List String)
  | [] => [(k, [v])]
  | (k', vs) :: rest =>
    if k' = k then (k', vs ++ [v]) :: rest else (k', vs) :: addToBuckets k v rest

/-- The `content_hashes` buckets of `_find_duplicates`: ids grouped by
content hash, empty contents skipped. -/
def contentHashBuckets (hash : String → String) (memories : Store) :
    List (String × List String) :=
  memories.foldl
    (fun acc m => if m.content ≠ "" then addToBuckets (hash m.content) m.id acc
      else acc) []

/-- The exact-duplicate groups: hash buckets with more than one member. -/
def exactDuplicates (hash : String → String) (memories : Store) :
    List (List String) :=
  ((contentHashBuckets hash memories).map Prod.snd).filter
    (fun ids => 1 < ids.length)

/-- `_find_duplicates` of `memory_curator.py`.  `nearCalc` stands for the
TF-IDF vectorizer and cosine-similarity pass over the valid contents;
`none` models the exception the surrounding `try` catches. -/
def takeChars (n : Nat) (s : String) : String :=
  ⟨s.data.take n⟩

def findDuplicates (hash : String → String)
    (nearCalc : List String → Option (List NearDup)) (memories : Store) :
    DupReport :=
  let exact := exactDuplicates hash memories
  if 1 < memories.length then
    let contents := memories.map (fun m => takeChars 500 m.content)
    if contents.any (fun c => c ≠ "") then
      let validContents := contents.filter (fun c => c ≠ "")
      if 1 < validContents.length then
        match nearCalc validContents with
        | some nearDups => DupReport.mapping exact (nearDups.take 10)
        | none => DupReport.mapping exact []
      else DupReport.bareList
    else DupReport.bareList
  else DupReport.mapping exact []

set_option maxRecDepth 2000 in
/-- C3 (code bug).  On a two-memory store with exactly one non-empty
content, `_find_duplicates` falls through every branch that assigns the
`\x7bexact, near\x7d` mapping and returns the initial bare list instead of the
contracted mapping shape; with a single memory the mapping shape is
returned.  The near-duplicate pass is never reached on this input. -/
theorem findDuplicates_bare_list_on_single_nonempty_content :
    findDuplicates id (fun _ => none)
      [⟨"a", "x", {}⟩, ⟨"b", "", {}⟩] = DupReport.bareList ∧
    findDuplicates id (fun _ => none) [⟨"a", "x", {}⟩]
      = DupReport.mapping [] [] := by
  constructor <;> rfl


/-- The archival test of `archive_old_memories` for one memory: a
`\x7bid, date, title\x7d` record when the (truthy) date string parses to a
date strictly before the cutoff `now - T` days, `none` otherwise (absent
or unparsable dates, which the `try/except` silently skips).  `parse`
stands for `datetime.fromisoformat` after the `Z` replacement, returning
`none` where Python raises. -/
def archiveCheck (parse : String → Option Int) (now T : Int) (e : Entry) :
    Option ArchiveRec :=
  match dateStrOf e.metadata with
  | some ds =>
    match parse ds with
    | some d =>
      if d < now - T then some ⟨e.id, ds, e.metadata.title.getD "Untitled"⟩
      else none
    | none => none
  | none => none

/-- The matched set `to_archive` of `archive_old_memories`. -/
def toArchiveList (parse : String → Option Int) (now T : Int) (s : Store) :
    List ArchiveRec :=
  s.filterMap (archiveCheck parse now T)

/-- Snapshot file path of an archival run: one file per run, named by the
run date, under the on-demand `memory_archive` directory. -/
def archivePath (nowDateStr : String) : String :=
  "memory_archive/archive_" ++ nowDateStr ++ ".json"

/-- Return payload of `archive_old_memories`. -/
structure ArchResult where
  found : Nat
  archived : Nat
  dry_run : Bool
  archive_path : Option String
  sample : List ArchiveRec
  deriving Repr, DecidableEq

/-- `archive_old_memories` of `memory_curator.py`.  When not a dry run and
the matched set is non-empty it writes the JSON snapshot and only then
issues the per-id deletes, in order. -/
def archiveOldMemories (parse : String → Option Int) (now : Int)
    (nowDateStr : String) (T : Int) (dryRun : Bool) (s : Store) :
    ArchResult × Store × List Ev :=
  if s.isEmpty then (⟨0, 0, dryRun, none, []⟩, s, [])
  else if !dryRun && !(toArchiveList parse now T s).isEmpty then
    (⟨(toArchiveList parse now T s).length, (toArchiveList parse now T s).length,
        dryRun, some (archivePath nowDateStr),
        (toArchiveList parse now T s).take 5⟩,
      deleteIds ((toArchiveList parse now T s).map ArchiveRec.id) s,
      Ev.writeSnapshot (archivePath nowDateStr) (toArchiveList parse now T s)
        :: (toArchiveList parse now T s).map (fun r => Ev.deleteId r.id))
  else
    (⟨(toArchiveList parse now T s).length,
        if dryRun then 0 else (toArchiveList parse now T s).length,
        dryRun, none, (toArchiveList parse now T s).take 5⟩, s, [])

lemma archiveCheck_eq_some_iff {parse : String → Option Int} {now T : Int}
    {e : Entry} {r : ArchiveRec} :
    archiveCheck parse now T e = some r ↔
    ∃ ds d, dateStrOf e.metadata = some ds ∧ parse ds = some d ∧
      d < now - T ∧ r = ⟨e.id, ds, e.metadata.title.getD "Untitled"⟩ := by
  unfold archiveCheck
  constructor
  · intro h
    split at h
    · rename_i ds hds
      split at h
      · rename_i d hp
        split at h
        · rename_i hlt
          cases h
          exact ⟨ds, d, hds, hp, hlt, rfl⟩
        · cases h
      · cases h
    · cases h
  · rintro ⟨ds, d, hds, hp, hlt, hr⟩
    rw [hds]
    simp only []
    rw [hp]
    simp only []
    rw [if_pos hlt, hr]

/-- C4.  A stored memory contributes a record to the matched set of
`archive_old_memories` (whose reported `found` count is the size of that
set) exactly when its date string is truthy and parses to a date more
than `T` days before now; absent or unparsable dates are excluded, and
the function is total, so they never raise. -/
theorem archiveOldMemories_member_iff (parse : String → Option Int)
    (now : Int) (nowDateStr : String) (T : Int) (dryRun : Bool) (s : Store)
    (hn : (s.map Entry.id).Nodup) (e : Entry) (he : e ∈ s) :
    (archiveOldMemories parse now nowDateStr T dryRun s).1.found
      = (toArchiveList parse now T s).length ∧
    ((∃ r ∈ toArchiveList parse now T s, r.id = e.id) ↔
      (∃ ds d, dateStrOf e.metadata = some ds ∧ parse ds = some d ∧
        d < now - T)) := by
  have hs : ¬ s.isEmpty := by
    cases s with
    | nil => cases he
    | cons a l => simp
  constructor
  · unfold archiveOldMemories
    rw [if_neg hs]
    split <;> rfl
  · constructor
    · rintro ⟨r, hr, hrid⟩
      obtain ⟨e', he', hfe⟩ := List.mem_filterMap.mp hr
      obtain ⟨ds, d, hds, hp, hlt, hrr⟩ := archiveCheck_eq_some_iff.mp hfe
      have hide : e'.id = e.id := by rw [← hrid, hrr]
      have hee : e' = e := List.inj_on_of_nodup_map hn he' he hide
      subst hee
      exact ⟨ds, d, hds, hp, hlt⟩
    · rintro ⟨ds, d, hds, hp, hlt⟩
      refine ⟨⟨e.id, ds, e.metadata.title.getD "Untitled"⟩, ?_, rfl⟩
      exact List.mem_filterMap.mpr
        ⟨e, he, archiveCheck_eq_some_iff.mpr ⟨ds, d, hds, hp, hlt, rfl⟩⟩

/-- Witness for C4: a two-memory store, one old parsable date and one
missing date, threshold 90 days. -/
theorem archiveOldMemories_member_iff_witness :
    (archiveOldMemories (fun ds => if ds = "2020-01-01" then some 0 else none)
        1000 "20250101" 90 true
        [⟨"old", "x", { date := some "2020-01-01" }⟩, ⟨"new", "y", {}⟩]).1.found
      = (toArchiveList (fun ds => if ds = "2020-01-01" then some 0 else none)
          1000 90
          [⟨"old", "x", { date := some "2020-01-01" }⟩, ⟨"new", "y", {}⟩]).length :=
  (archiveOldMemories_member_iff
    (fun ds => if ds = "2020-01-01" then some 0 else none) 1000 "20250101" 90
    true [⟨"old", "x", { date := some "2020-01-01" }⟩, ⟨"new", "y", {}⟩]
    (by decide) ⟨"old", "x", { date := some "2020-01-01" }⟩
    (by simp)).1

/-- C5.  In a non-dry-run archival with a non-empty matched set, the trace
opens with the single snapshot write — carrying the complete array of
`\x7bid, date, title\x7d` records and the run-date file path — and every
delete of a matched id comes strictly after it. -/
theorem archiveOldMemories_snapshot_precedes_deletes
    (parse : String → Option Int) (now : Int) (nowDateStr : String) (T : Int)
    (s : Store) (hta : toArchiveList parse now T s ≠ []) :
    (archiveOldMemories parse now nowDateStr T false s).2.2
      = Ev.writeSnapshot (archivePath nowDateStr) (toArchiveList parse now T s)
        :: (toArchiveList parse now T s).map (fun r => Ev.deleteId r.id) := by
  have hs : ¬ s.isEmpty := by
    cases s with
    | nil => simp [toArchiveList] at hta
    | cons a l => simp
  unfold archiveOldMemories
  rw [if_neg hs]
  have hne : (!false && !(toArchiveList parse now T s).isEmpty) = true := by
    simp [List.isEmpty_iff, hta]
  rw [if_pos hne]

/-- Witness for C5: one old memory, threshold 90 days. -/
theorem archiveOldMemories_snapshot_precedes_deletes_witness :
    (archiveOldMemories (fun _ => some 0) 1000 "20250101" 90 false
        [⟨"old", "x", { date := some "2020-01-01" }⟩]).2.2
      = Ev.writeSnapshot "memory_archive/archive_20250101.json"
          [⟨"old", "2020-01-01", "Untitled"⟩]
        :: [Ev.deleteId "old"] := by
  have h := archiveOldMemories_snapshot_precedes_deletes (fun _ => some 0)
    1000 "20250101" 90 [⟨"old", "x", { date := some "2020-01-01" }⟩]
    (by decide)
  simpa using h

/-- The staleness test of `_find_stale_memories` for one memory: skipped
outright when `last_accessed` is truthy, otherwise the creation-date
fallback is parsed and compared against the cutoff. -/
def staleCheck (parse : String → Option Int) (now T : Int) (m : Entry) :
    Option ArchiveRec :=
  if truthy m.metadata.last_accessed then none
  else
    match dateStrOf m.metadata with
    | some ds =>
      match parse ds with
      | some d =>
        if d < now - T then some ⟨m.id, ds, m.metadata.title.getD "Untitled"⟩
        else none
      | none => none
    | none => none

/-- `_find_stale_memories` of `memory_curator.py`, report capped at 20. -/
def findStaleMemories (parse : String → Option Int) (now T : Int)
    (memories : Store) : List ArchiveRec :=
  (memories.filterMap (staleCheck parse now T)).take 20

/-- C9.  A memory whose metadata holds a truthy `last_accessed` value is
never reported stale, however old its date metadata is. -/
theorem findStaleMemories_skips_accessed (parse : String → Option Int)
    (now T : Int) (ms : Store) (hn : (ms.map Entry.id).Nodup) (m : Entry)
    (hm : m ∈ ms) (ha : truthy m.metadata.last_accessed = true) :
    ∀ r ∈ findStaleMemories parse now T ms, r.id ≠ m.id := by
  intro r hr hrid
  have hr' : r ∈ ms.filterMap (staleCheck parse now T) := List.mem_of_mem_take hr
  obtain ⟨m', hm', hfm⟩ := List.mem_filterMap.mp hr'
  have hidm : m'.id = r.id := by
    revert hfm
    unfold staleCheck
    split
    · intro h; cases h
    · split
      · split
        · split
          · intro h; cases h; rfl
          · intro h; cases h
        · intro h; cases h
      · intro h; cases h
  have hmm : m' = m := List.inj_on_of_nodup_map hn hm' hm (hidm.trans hrid)
  subst hmm
  unfold staleCheck at hfm
  rw [if_pos ha] at hfm
  cases hfm

/-- Witness for C9: two equally old memories, one recently accessed; the
stale record that does appear is the unaccessed one, not the accessed
id `m`. -/
theorem findStaleMemories_skips_accessed_witness :
    (⟨"old", "2020-01-01", "Untitled"⟩ : ArchiveRec).id ≠ "m" :=
  findStaleMemories_skips_accessed (fun _ => some 0) 1000 90
    [⟨"m", "x", Metadata.mk none none none (some "2020-01-01") none none
      (some "2025-10-01") none none none none⟩,
     ⟨"old", "y", Metadata.mk none none none (some "2020-01-01") none none
      none none none none none⟩] (by decide)
    ⟨"m", "x", Metadata.mk none none none (some "2020-01-01") none none
      (some "2025-10-01") none none none none⟩ (by simp) (by decide)
    ⟨"old", "2020-01-01", "Untitled"⟩ (by decide)

/-- `(s ++ t).data` splits into the two character lists. -/
lemma data_append (s t : String) : (s ++ t).data = s.data ++ t.data := by
  cases s; cases t; rfl

lemma containsSeq_nil (l : List Char) : containsSeq [] l = true := by
  induction l with
  | nil => rfl
  | cons c rest ih => simp [containsSeq, List.isPrefixOf]

lemma isPrefixOf_append_self (l t : List Char) :
    l.isPrefixOf (l ++ t) = true := by
  induction l with
  | nil => simp [List.isPrefixOf]
  | cons c rest ih => simp [List.isPrefixOf, ih]

lemma containsSeq_sandwich (n p t : List Char) :
    containsSeq n (p ++ (n ++ t)) = true := by
  induction p with
  | nil =>
    simp only [List.nil_append]
    cases n with
    | nil => exact containsSeq_nil t
    | cons c rest =>
      have h : (c :: rest).isPrefixOf (c :: (rest ++ t)) = true := by
        simp [isPrefixOf_append_self (c :: rest) t]
      simp [containsSeq, h]
  | cons c p' ih => simp [containsSeq, ih]

lemma strContains_of_decomp (c h : String) (p t : List Char)
    (hd : c.data = p ++ (h.data ++ t)) : strContains c h = true := by
  rw [strContains, hd]
  exact containsSeq_sandwich h.data p t

/-- Python `str.join`: the separator interleaved between the parts. -/
def joinSep (sep : String) : List String → String
  | [] => ""
  | [x] => x
  | x :: rest => x ++ sep ++ joinSep sep rest

/-- Python `set.update` on an insertion-ordered list model of a set. -/
def pyUpdate (acc ts : List String) : List String :=
  ts.foldl (fun a t => if t ∈ a then a else a ++ [t]) acc

lemma mem_pyUpdate (acc ts : List String) (x : String) :
    x ∈ pyUpdate acc ts ↔ x ∈ acc ∨ x ∈ ts := by
  induction ts generalizing acc with
  | nil => simp [pyUpdate]
  | cons t rest ih =>
    show x ∈ pyUpdate (if t ∈ acc then acc else acc ++ [t]) rest ↔ _
    rw [ih]
    by_cases ht : t ∈ acc
    · rw [if_pos ht]
      constructor
      · rintro (h | h)
        · exact Or.inl h
        · exact Or.inr (List.mem_cons_of_mem t h)
      · rintro (h | h)
        · exact Or.inl h
        · rcases List.mem_cons.mp h with h | h
          · exact Or.inl (h ▸ ht)
          · exact Or.inr h
    · rw [if_neg ht]
      simp only [List.mem_append, List.mem_singleton, List.mem_cons]
      tauto

/-- The `ids=memory_ids` lookup of `consolidate_memories`: each id
resolved against the collection, missing ids dropped. -/
def resultsOf (s : Store) (memoryIds : List String) : List Entry :=
  memoryIds.filterMap (fun i => s.find? (fun e => decide (e.id = i)))

/-- The parsed technology list of one memory as consolidation sees it:
the raw JSON text when truthy, decoded by `loads` with the `except`
fallback to the empty list. -/
def techListOf (loads : String → Option (List String)) (md : Metadata) :
    List String :=
  if truthy md.technologies then (loads (md.technologies.getD "")).getD []
  else []

/-- The `## title (date)` section header written for one consolidated
memory. -/
def headerOf (e : Entry) : String :=
  "## " ++ e.metadata.title.getD "Untitled" ++ " ("
    ++ e.metadata.date.getD "Unknown date" ++ ")"

/-- One block of the combined content: header line then the body. -/
def partOf (e : Entry) : String :=
  headerOf e ++ "\n" ++ e.content ++ "\n"

/-- The technology-set union accumulated over the fetched memories. -/
def combinedTechsOf (loads : String → Option (List String))
    (results : List Entry) : List String :=
  results.foldl (fun acc e => pyUpdate acc (techListOf loads e.metadata)) []

/-- The collected dates (entries whose `date` differs from the
`Unknown date` default). -/
def datesOf (results : List Entry) : List String :=
  results.filterMap (fun e =>
    if e.metadata.date.getD "Unknown date" ≠ "Unknown date" then
      some (e.metadata.date.getD "Unknown date")
    else none)

/-- The displayed date range: earliest to latest after sorting, or the
run date when no memory carried a date. -/
def dateRangeOf (nowDate : String) (dates : List String) : String :=
  match List.insertionSort (fun a b : String => a ≤ b) dates with
  | [] => nowDate
  | d :: rest =>
    if rest.isEmpty then d else d ++ " to " ++ (d :: rest).getLast!

/-- The combined document of the consolidated memory. -/
def consolidatedContentOf (results : List Entry) : String :=
  joinSep "\n---\n" (results.map partOf)

/-- Python `new_title or default`. -/
def consolidatedTitleOf (newTitle : Option String) (n : Nat) : String :=
  if truthy newTitle then newTitle.getD ""
  else "Consolidated Memory (" ++ toString n ++ " memories)"

/-- The synthetic memory `consolidate_memories` adds: combined content,
union technologies, `source=consolidation`, `complexity=high`,
provenance fields, id derived from the first 8 hash characters. -/
def newEntryOf (loads : String → Option (List String))
    (dumps : List String → String) (hash : String → String)
    (nowIso nowDate : String) (memoryIds : List String)
    (newTitle : Option String) (results : List Entry) : Entry :=
  ⟨"consolidated_" ++ takeChars 8 (hash (consolidatedContentOf results)),
    consolidatedContentOf results,
    { title := some (consolidatedTitleOf newTitle memoryIds.length),
      technologies := some (dumps (combinedTechsOf loads results)),
      complexity := some "high",
      date := some (dateRangeOf nowDate (datesOf results)),
      source := some "consolidation",
      consolidated_from := some (dumps memoryIds),
      consolidated_at := some nowIso,
      original_count := some memoryIds.length }⟩

/-- Return payload of `consolidate_memories`. -/
structure ConsResult where
  success : Bool
  consolidated_id : Option String := none
  original_count : Option Nat := none
  new_title : Option String := none
  error : Option String := none
  deriving Repr, DecidableEq

/-- `consolidate_memories` of `memory_curator.py`: fetch the named
memories, build the combined memory, add it; the originals are not
deleted (the deletion loop is commented out in the source). -/
def consolidateMemories (loads : String → Option (List String))
    (dumps : List String → String) (hash : String → String)
    (nowIso nowDate : String) (s : Store) (memoryIds : List String)
    (newTitle : Option String) : ConsResult × Store × List Ev :=
  if (resultsOf s memoryIds).isEmpty then
    (⟨false, none, none, none, some "No memories found with provided IDs"⟩,
      s, [])
  else
    (⟨true,
        some (newEntryOf loads dumps hash nowIso nowDate memoryIds newTitle
          (resultsOf s memoryIds)).id,
        some memoryIds.length,
        some (consolidatedTitleOf newTitle memoryIds.length), none⟩,
      s ++ [newEntryOf loads dumps hash nowIso nowDate memoryIds newTitle
        (resultsOf s memoryIds)],
      [Ev.addEntry (newEntryOf loads dumps hash nowIso nowDate memoryIds
        newTitle (resultsOf s memoryIds))])

lemma consolidatedContent_two (a b : Entry) :
    consolidatedContentOf [a, b] = partOf a ++ "\n---\n" ++ partOf b := rfl

lemma header_contains_left (a b : Entry) :
    strContains (consolidatedContentOf [a, b]) (headerOf a) = true := by
  apply strContains_of_decomp _ _ []
    (("\n" ++ (a.content ++ ("\n" ++ ("\n---\n" ++ partOf b)))).data)
  simp [consolidatedContent_two, partOf, data_append, List.append_assoc]

lemma header_contains_right (a b : Entry) :
    strContains (consolidatedContentOf [a, b]) (headerOf b) = true := by
  apply strContains_of_decomp _ _ ((partOf a ++ "\n---\n").data)
    (("\n" ++ (b.content ++ "\n")).data)
  simp [consolidatedContent_two, partOf, data_append, List.append_assoc]

/-- C6.  Consolidating two resolvable ids adds exactly one new memory
(one `add`, no deletes, the store otherwise untouched): its content
contains the `## title (date)` section header of each original, its
`technologies` metadata is the JSON dump of the set union of the
technology lists of the two inputs, its `source` is `consolidation`, and both
original memories are still in the store afterwards. -/
theorem consolidateMemories_adds_combined (loads : String → Option (List String))
    (dumps : List String → String) (hash : String → String)
    (nowIso nowDate : String) (s : Store) (idA idB : String)
    (newTitle : Option String) (eA eB : Entry)
    (hA : s.find? (fun e => decide (e.id = idA)) = some eA)
    (hB : s.find? (fun e => decide (e.id = idB)) = some eB) :
    ∃ ne : Entry,
      (consolidateMemories loads dumps hash nowIso nowDate s [idA, idB]
        newTitle).2.1 = s ++ [ne] ∧
      (consolidateMemories loads dumps hash nowIso nowDate s [idA, idB]
        newTitle).2.2 = [Ev.addEntry ne] ∧
      strContains ne.content (headerOf eA) = true ∧
      strContains ne.content (headerOf eB) = true ∧
      ne.metadata.source = some "consolidation" ∧
      (∃ l, ne.metadata.technologies = some (dumps l) ∧
        ∀ t, t ∈ l ↔
          (t ∈ techListOf loads eA.metadata ∨ t ∈ techListOf loads eB.metadata)) ∧
      eA ∈ (consolidateMemories loads dumps hash nowIso nowDate s [idA, idB]
        newTitle).2.1 ∧
      eB ∈ (consolidateMemories loads dumps hash nowIso nowDate s [idA, idB]
        newTitle).2.1 := by
  have hres : resultsOf s [idA, idB] = [eA, eB] := by
    simp [resultsOf, List.filterMap_cons, hA, hB]
  have hmemA : eA ∈ s := List.mem_of_find?_eq_some hA
  have hmemB : eB ∈ s := List.mem_of_find?_eq_some hB
  have hstore : (consolidateMemories loads dumps hash nowIso nowDate s
      [idA, idB] newTitle).2.1
      = s ++ [newEntryOf loads dumps hash nowIso nowDate [idA, idB] newTitle
        [eA, eB]] := by
    unfold consolidateMemories
    rw [hres]
    rfl
  have htrace : (consolidateMemories loads dumps hash nowIso nowDate s
      [idA, idB] newTitle).2.2
      = [Ev.addEntry (newEntryOf loads dumps hash nowIso nowDate [idA, idB]
        newTitle [eA, eB])] := by
    unfold consolidateMemories
    rw [hres]
    rfl
  refine ⟨newEntryOf loads dumps hash nowIso nowDate [idA, idB] newTitle
    [eA, eB], hstore, htrace, ?_, ?_, rfl, ?_, ?_, ?_⟩
  · exact header_contains_left eA eB
  · exact header_contains_right eA eB
  · refine ⟨combinedTechsOf loads [eA, eB], rfl, ?_⟩
    intro t
    show t ∈ pyUpdate (pyUpdate [] (techListOf loads eA.metadata))
      (techListOf loads eB.metadata) ↔ _
    rw [mem_pyUpdate, mem_pyUpdate]
    simp [or_assoc]
  · rw [hstore]
    exact List.mem_append_left _ hmemA
  · rw [hstore]
    exact List.mem_append_left _ hmemB

/-- Witness for C6: two concrete memories with titles, dates and
technology metadata. -/
theorem consolidateMemories_adds_combined_witness :
    ∃ ne : Entry,
      (consolidateMemories (fun _ => some ["python"]) (joinSep ",") id
        "2025-10-12T00:00:00" "2025-10-12"
        [⟨"a", "alpha body", Metadata.mk (some "Alpha") (some "[py]") none
          (some "2024-01-01") none none none none none none none⟩,
         ⟨"b", "beta body", Metadata.mk (some "Beta") none none
          (some "2024-02-01") none none none none none none none⟩]
        ["a", "b"] none).2.1
        = [⟨"a", "alpha body", Metadata.mk (some "Alpha") (some "[py]") none
            (some "2024-01-01") none none none none none none none⟩,
           ⟨"b", "beta body", Metadata.mk (some "Beta") none none
            (some "2024-02-01") none none none none none none none⟩] ++ [ne] ∧
      (consolidateMemories (fun _ => some ["python"]) (joinSep ",") id
        "2025-10-12T00:00:00" "2025-10-12"
        [⟨"a", "alpha body", Metadata.mk (some "Alpha") (some "[py]") none
          (some "2024-01-01") none none none none none none none⟩,
         ⟨"b", "beta body", Metadata.mk (some "Beta") none none
          (some "2024-02-01") none none none none none none none⟩]
        ["a", "b"] none).2.2 = [Ev.addEntry ne] ∧
      strContains ne.content (headerOf ⟨"a", "alpha body",
        Metadata.mk (some "Alpha") (some "[py]") none (some "2024-01-01")
          none none none none none none none⟩) = true ∧
      strContains ne.content (headerOf ⟨"b", "beta body",
        Metadata.mk (some "Beta") none none (some "2024-02-01")
          none none none none none none none⟩) = true ∧
      ne.metadata.source = some "consolidation" ∧
      (∃ l, ne.metadata.technologies = some (joinSep "," l) ∧
        ∀ t, t ∈ l ↔
          (t ∈ techListOf (fun _ => some ["python"])
            (Metadata.mk (some "Alpha") (some "[py]") none (some "2024-01-01")
              none none none none none none none) ∨
           t ∈ techListOf (fun _ => some ["python"])
            (Metadata.mk (some "Beta") none none (some "2024-02-01")
              none none none none none none none))) ∧
      (⟨"a", "alpha body", Metadata.mk (some "Alpha") (some "[py]") none
        (some "2024-01-01") none none none none none none none⟩ : Entry)
        ∈ (consolidateMemories (fun _ => some ["python"]) (joinSep ",") id
        "2025-10-12T00:00:00" "2025-10-12"
        [⟨"a", "alpha body", Metadata.mk (some "Alpha") (some "[py]") none
          (some "2024-01-01") none none none none none none none⟩,
         ⟨"b", "beta body", Metadata.mk (some "Beta") none none
          (some "2024-02-01") none none none none none none none⟩]
        ["a", "b"] none).2.1 ∧
      (⟨"b", "beta body", Metadata.mk (some "Beta") none none
        (some "2024-02-01") none none none none none none none⟩ : Entry)
        ∈ (consolidateMemories (fun _ => some ["python"]) (joinSep ",") id
        "2025-10-12T00:00:00" "2025-10-12"
        [⟨"a", "alpha body", Metadata.mk (some "Alpha") (some "[py]") none
          (some "2024-01-01") none none none none none none none⟩,
         ⟨"b", "beta body", Metadata.mk (some "Beta") none none
          (some "2024-02-01") none none none none none none none⟩]
        ["a", "b"] none).2.1 :=
  consolidateMemories_adds_combined (fun _ => some ["python"]) (joinSep ",")
    id "2025-10-12T00:00:00" "2025-10-12"
    [⟨"a", "alpha body", Metadata.mk (some "Alpha") (some "[py]") none
      (some "2024-01-01") none none none none none none none⟩,
     ⟨"b", "beta body", Metadata.mk (some "Beta") none none
      (some "2024-02-01") none none none none none none none⟩]
    "a" "b" none
    ⟨"a", "alpha body", Metadata.mk (some "Alpha") (some "[py]") none
      (some "2024-01-01") none none none none none none none⟩
    ⟨"b", "beta body", Metadata.mk (some "Beta") none none
      (some "2024-02-01") none none none none none none none⟩
    (by decide) (by decide)

/-- Python `str.strip()`: whitespace removed from both ends. -/
def pyStrip (s : String) : String :=
  ⟨((s.data.dropWhile Char.isWhitespace).reverse.dropWhile
    Char.isWhitespace).reverse⟩

/-- Python `str.lower()`. -/
def pyLower (s : String) : String :=
  ⟨s.data.map Char.toLower⟩

/-- Python `str.split(chr(10))` over a character list: split at every
separator, adjacent separators yielding empty fields. -/
def splitOnChar (c : Char) : List Char → List (List Char)
  | [] => [[]]
  | x :: rest =>
    if x = c then [] :: splitOnChar c rest
    else
      match splitOnChar c rest with
      | [] => [[x]]
      | h :: t => (x :: h) :: t

/-- The lines of a content body, as Python `content.split` on newline. -/
def pySplitLines (s : String) : List String :=
  (splitOnChar '\n' s.data).map (fun l => ⟨l⟩)

/-- The synthesized title of `enhance_memory_quality`: the first line
whose stripped text is non-empty and whose raw length is strictly
between 10 and 100, stripped and truncated to 80 characters. -/
def deriveTitle (content : String) : Option String :=
  ((pySplitLines content).find? (fun line =>
    decide (pyStrip line ≠ "") && decide (10 < line.length) &&
      decide (line.length < 100))).map
    (fun line => takeChars 80 (pyStrip line))

/-- The fixed technology keyword list scanned by
`enhance_memory_quality`. -/
def techKeywords : List String :=
  ["python", "javascript", "typescript", "react", "flask",
   "sql", "html", "css", "node", "npm", "git", "docker"]

/-- The technologies found in the lowercased content. -/
def foundTechOf (content : String) : List String :=
  techKeywords.filter (fun k => strContains (pyLower content) k)

/-- The length/code-block complexity heuristic. -/
def complexityOf (content : String) : String :=
  if 1000 < content.length ∨ hasCodeBlock content = true then "high"
  else if 500 < content.length then "medium"
  else "low"

/-- Title phase of `enhance_memory_quality`: derive a title only when the
current one is absent, empty or the `Untitled` placeholder. -/
def enhanceTitleStep (content : String) (md : Metadata) : Metadata :=
  if ¬ truthy md.title = true ∨ md.title = some "Untitled" then
    match deriveTitle content with
    | some t => { md with title := some t }
    | none => md
  else md

/-- Technology phase: scan the keyword list only when `technologies` is
not truthy, and set it only when something was found. -/
def enhanceTechStep (dumps : List String → String) (content : String)
    (md : Metadata) : Metadata :=
  if ¬ truthy md.technologies = true then
    if foundTechOf content ≠ [] then
      { md with technologies := some (dumps (foundTechOf content)) }
    else md
  else md

/-- Complexity phase: set the heuristic rating only when absent. -/
def enhanceComplexityStep (content : String) (md : Metadata) : Metadata :=
  if ¬ truthy md.complexity = true then
    { md with complexity := some (complexityOf content) }
  else md

/-- The full metadata enhancement of `enhance_memory_quality`: the three
derivation phases in source order, then the unconditional
`enhanced_at` timestamp. -/
def enhanceMeta (dumps : List String → String) (now content : String)
    (md : Metadata) : Metadata :=
  { enhanceComplexityStep content
      (enhanceTechStep dumps content (enhanceTitleStep content md)) with
    enhanced_at := some now }

/-- `collection.update(ids=[id], metadatas=[md])`: metadata
replace-by-id. -/
def updateMetaInStore (s : Store) (i : String) (md : Metadata) : Store :=
  s.map (fun e => if e.id = i then { e with metadata := md } else e)

/-- Return payload of `enhance_memory_quality`. -/
structure EnhResult where
  success : Bool
  memory_id : Option String := none
  title_added : Bool := false
  technologies_added : Bool := false
  complexity_added : Bool := false
  error : Option String := none
  deriving Repr, DecidableEq

/-- Body of `enhance_memory_quality` after the id lookup. -/
def enhanceCore (dumps : List String → String) (now : String)
    (updateFails : String → Bool) (s : Store) (memoryId : String) :
    Option Entry → EnhResult × Store × List Ev
  | none => (⟨false, none, false, false, false, some "Memory not found"⟩, s, [])
  | some e =>
    if updateFails memoryId then
      (⟨false, none, false, false, false, some "update failed"⟩, s, [])
    else
      (⟨true, some memoryId,
          (enhanceMeta dumps now e.content e.metadata).title.isSome &&
            !e.metadata.title.isSome,
          (enhanceMeta dumps now e.content e.metadata).technologies.isSome &&
            !e.metadata.technologies.isSome,
          (enhanceMeta dumps now e.content e.metadata).complexity.isSome &&
            !e.metadata.complexity.isSome, none⟩,
        updateMetaInStore s memoryId (enhanceMeta dumps now e.content e.metadata),
        [Ev.updateMeta memoryId (enhanceMeta dumps now e.content e.metadata)])

/-- `enhance_memory_quality` of `memory_curator.py`.  `updateFails`
models `collection.update` raising for the id, which the surrounding
`try/except` turns into a failure result with no store change. -/
def enhanceMemoryQuality (dumps : List String → String) (now : String)
    (updateFails : String → Bool) (s : Store) (memoryId : String) :
    EnhResult × Store × List Ev :=
  enhanceCore dumps now updateFails s memoryId
    (s.find? (fun e => decide (e.id = memoryId)))

lemma title_of_techStep (d : List String → String) (c : String) (m : Metadata) :
    (enhanceTechStep d c m).title = m.title := by
  unfold enhanceTechStep
  split_ifs <;> rfl

lemma title_of_complexityStep (c : String) (m : Metadata) :
    (enhanceComplexityStep c m).title = m.title := by
  unfold enhanceComplexityStep
  split_ifs <;> rfl

lemma technologies_of_titleStep (c : String) (m : Metadata) :
    (enhanceTitleStep c m).technologies = m.technologies := by
  unfold enhanceTitleStep
  split
  · split <;> rfl
  · rfl

lemma technologies_of_complexityStep (c : String) (m : Metadata) :
    (enhanceComplexityStep c m).technologies = m.technologies := by
  unfold enhanceComplexityStep
  split_ifs <;> rfl

lemma complexity_of_titleStep (c : String) (m : Metadata) :
    (enhanceTitleStep c m).complexity = m.complexity := by
  unfold enhanceTitleStep
  split
  · split <;> rfl
  · rfl

lemma complexity_of_techStep (d : List String → String) (c : String)
    (m : Metadata) : (enhanceTechStep d c m).complexity = m.complexity := by
  unfold enhanceTechStep
  split_ifs <;> rfl

lemma enhanceMeta_title (d : List String → String) (n c : String)
    (m : Metadata) :
    (enhanceMeta d n c m).title = (enhanceTitleStep c m).title := by
  show (enhanceComplexityStep c (enhanceTechStep d c
    (enhanceTitleStep c m))).title = _
  rw [title_of_complexityStep, title_of_techStep]

lemma enhanceMeta_technologies (d : List String → String) (n c : String)
    (m : Metadata) :
    (enhanceMeta d n c m).technologies
      = (enhanceTechStep d c (enhanceTitleStep c m)).technologies := by
  show (enhanceComplexityStep c (enhanceTechStep d c
    (enhanceTitleStep c m))).technologies = _
  rw [technologies_of_complexityStep]

lemma enhanceMeta_complexity (d : List String → String) (n c : String)
    (m : Metadata) :
    (enhanceMeta d n c m).complexity
      = (enhanceComplexityStep c (enhanceTechStep d c
          (enhanceTitleStep c m))).complexity := rfl

lemma enhanceTitleStep_stable (c : String) (md md' : Metadata)
    (h : md'.title = (enhanceTitleStep c md).title) :
    (enhanceTitleStep c md').title = md'.title := by
  unfold enhanceTitleStep at h ⊢
  cases hd : deriveTitle c with
  | none =>
    by_cases h2 : (¬ truthy md'.title = true ∨ md'.title = some "Untitled")
    · rw [if_pos h2]
    · rw [if_neg h2]
  | some t =>
    rw [hd] at h
    by_cases h1 : (¬ truthy md.title = true ∨ md.title = some "Untitled")
    · rw [if_pos h1] at h
      have h' : md'.title = some t := h
      by_cases h2 : (¬ truthy md'.title = true ∨ md'.title = some "Untitled")
      · rw [if_pos h2]
        exact h'.symm
      · rw [if_neg h2]
    · rw [if_neg h1] at h
      have h2 : ¬ (¬ truthy md'.title = true ∨ md'.title = some "Untitled") := by
        rw [h]; exact h1
      rw [if_neg h2]

lemma enhanceTechStep_stable (d : List String → String) (c : String)
    (md md' : Metadata)
    (h : md'.technologies = (enhanceTechStep d c md).technologies) :
    (enhanceTechStep d c md').technologies = md'.technologies := by
  unfold enhanceTechStep at h ⊢
  by_cases h1 : ¬ truthy md.technologies = true
  · rw [if_pos h1] at h
    by_cases hf : foundTechOf c ≠ []
    · rw [if_pos hf] at h
      have h' : md'.technologies = some (d (foundTechOf c)) := h
      by_cases h2 : ¬ truthy md'.technologies = true
      · rw [if_pos h2, if_pos hf]
        exact h'.symm
      · rw [if_neg h2]
    · rw [if_neg hf] at h
      by_cases h2 : ¬ truthy md'.technologies = true
      · rw [if_pos h2, if_neg hf]
      · rw [if_neg h2]
  · rw [if_neg h1] at h
    have h2 : ¬ ¬ truthy md'.technologies = true := by
      rw [h]; exact h1
    rw [if_neg h2]

lemma truthy_complexityOf (c : String) :
    truthy (some (complexityOf c)) = true := by
  unfold complexityOf
  split_ifs <;> decide

lemma enhanceComplexityStep_stable (c : String) (md md' : Metadata)
    (h : md'.complexity = (enhanceComplexityStep c md).complexity) :
    (enhanceComplexityStep c md').complexity = md'.complexity := by
  unfold enhanceComplexityStep at h ⊢
  by_cases h1 : ¬ truthy md.complexity = true
  · rw [if_pos h1] at h
    have h' : md'.complexity = some (complexityOf c) := h
    have h2 : ¬ ¬ truthy md'.complexity = true := by
      rw [h']
      simp [truthy_complexityOf c]
    rw [if_neg h2]
  · rw [if_neg h1] at h
    have h2 : ¬ ¬ truthy md'.complexity = true := by
      rw [h]; exact h1
    rw [if_neg h2]

/-- Enhancing already-enhanced metadata leaves the three derived fields
(title, technologies, complexity) at their values. -/
lemma enhanceMeta_stable_fields (d : List String → String) (n1 n2 c : String)
    (md : Metadata) :
    (enhanceMeta d n2 c (enhanceMeta d n1 c md)).title
      = (enhanceMeta d n1 c md).title ∧
    (enhanceMeta d n2 c (enhanceMeta d n1 c md)).technologies
      = (enhanceMeta d n1 c md).technologies ∧
    (enhanceMeta d n2 c (enhanceMeta d n1 c md)).complexity
      = (enhanceMeta d n1 c md).complexity := by
  refine ⟨?_, ?_, ?_⟩
  · rw [enhanceMeta_title]
    exact enhanceTitleStep_stable c md (enhanceMeta d n1 c md)
      (enhanceMeta_title d n1 c md)
  · rw [enhanceMeta_technologies]
    have ht : (enhanceTitleStep c (enhanceMeta d n1 c md)).technologies
        = (enhanceMeta d n1 c md).technologies :=
      technologies_of_titleStep c (enhanceMeta d n1 c md)
    have hstable := enhanceTechStep_stable d c (enhanceTitleStep c md)
      (enhanceTitleStep c (enhanceMeta d n1 c md))
      (by rw [ht, enhanceMeta_technologies])
    rw [hstable, ht]
  · rw [enhanceMeta_complexity]
    have ht : (enhanceTechStep d c (enhanceTitleStep c
        (enhanceMeta d n1 c md))).complexity
        = (enhanceMeta d n1 c md).complexity := by
      rw [complexity_of_techStep, complexity_of_titleStep]
    have hstable := enhanceComplexityStep_stable c
      (enhanceTechStep d c (enhanceTitleStep c md))
      (enhanceTechStep d c (enhanceTitleStep c (enhanceMeta d n1 c md)))
      (by rw [ht, enhanceMeta_complexity])
    rw [hstable, ht]

lemma find?_updateMetaInStore (s : Store) (i : String) (md : Metadata)
    (e : Entry) (h : s.find? (fun x => decide (x.id = i)) = some e) :
    (updateMetaInStore s i md).find? (fun x => decide (x.id = i))
      = some { e with metadata := md } := by
  induction s with
  | nil => cases h
  | cons a rest ih =>
    by_cases ha : a.id = i
    · rw [List.find?_cons_of_pos _ (by simp [ha])] at h
      have he : a = e := by injection h
      subst he
      show ((if a.id = i then { a with metadata := md } else a) ::
        updateMetaInStore rest i md).find? (fun x => decide (x.id = i)) = _
      rw [if_pos ha]
      rw [List.find?_cons_of_pos _ (by simp [ha])]
    · rw [List.find?_cons_of_neg _ (by simp [ha])] at h
      show ((if a.id = i then { a with metadata := md } else a) ::
        updateMetaInStore rest i md).find? (fun x => decide (x.id = i)) = _
      rw [if_neg ha]
      rw [List.find?_cons_of_neg _ (by simp [ha])]
      exact ih h

/-- C10.  Whenever the id resolves (and the store update goes through),
`enhance_memory_quality` reports success, issues exactly one metadata
update whose record carries `enhanced_at = now`, and the stored metadata
of the id becomes that record — even if no title, technologies or
complexity was derived. -/
theorem enhanceMemoryQuality_always_stamps (dumps : List String → String)
    (now : String) (uf : String → Bool) (s : Store) (memoryId : String)
    (e : Entry) (hfind : s.find? (fun x => decide (x.id = memoryId)) = some e)
    (huf : uf memoryId = false) :
    (enhanceMemoryQuality dumps now uf s memoryId).1.success = true ∧
    (enhanceMemoryQuality dumps now uf s memoryId).2.2
      = [Ev.updateMeta memoryId (enhanceMeta dumps now e.content e.metadata)] ∧
    (enhanceMeta dumps now e.content e.metadata).enhanced_at = some now ∧
    (enhanceMemoryQuality dumps now uf s memoryId).2.1
      = updateMetaInStore s memoryId
          (enhanceMeta dumps now e.content e.metadata) := by
  have hcond : ¬ (uf memoryId = true) := by simp [huf]
  unfold enhanceMemoryQuality
  rw [hfind]
  simp only [enhanceCore]
  rw [if_neg hcond]
  exact ⟨rfl, rfl, rfl, rfl⟩

/-- Witness for C10: a memory that already carries every derivable field,
so the only change is the timestamp — the update is still issued. -/
theorem enhanceMemoryQuality_always_stamps_witness :
    (enhanceMemoryQuality (joinSep ",") "2025-10-12T00:00:00"
      (fun _ => false)
      [⟨"m", "", Metadata.mk (some "Title here") (some "[py]") (some "low")
        none none none none none none none none⟩] "m").1.success = true :=
  (enhanceMemoryQuality_always_stamps (joinSep ",") "2025-10-12T00:00:00"
    (fun _ => false)
    [⟨"m", "", Metadata.mk (some "Title here") (some "[py]") (some "low")
      none none none none none none none none⟩] "m"
    ⟨"m", "", Metadata.mk (some "Title here") (some "[py]") (some "low")
      none none none none none none none none⟩ (by decide) rfl).1

lemma enhanceMemoryQuality_run (dumps : List String → String) (now : String)
    (uf : String → Bool) (s : Store) (memoryId : String) (e : Entry)
    (hfind : s.find? (fun x => decide (x.id = memoryId)) = some e)
    (huf : uf memoryId = false) :
    enhanceMemoryQuality dumps now uf s memoryId
      = (⟨true, some memoryId,
          (enhanceMeta dumps now e.content e.metadata).title.isSome &&
            !e.metadata.title.isSome,
          (enhanceMeta dumps now e.content e.metadata).technologies.isSome &&
            !e.metadata.technologies.isSome,
          (enhanceMeta dumps now e.content e.metadata).complexity.isSome &&
            !e.metadata.complexity.isSome, none⟩,
        updateMetaInStore s memoryId (enhanceMeta dumps now e.content e.metadata),
        [Ev.updateMeta memoryId (enhanceMeta dumps now e.content e.metadata)]) := by
  unfold enhanceMemoryQuality
  rw [hfind]
  simp only [enhanceCore]
  rw [if_neg (by simp [huf])]

set_option maxRecDepth 4000 in
/-- C7 (counterexample).  On a one-memory store with empty content and
empty metadata, the first enhancement sets `complexity` and stamps
`enhanced_at`; a second enhancement at a later timestamp rewrites
`enhanced_at` — a metadata field the first call populated — so the
second call is not a no-op on fields the first call set. -/
theorem enhanceMemoryQuality_second_call_changes_enhanced_at :
    (enhanceMemoryQuality (joinSep ",") "2025-01-01T00:00:00" (fun _ => false)
        [⟨"m1", "", {}⟩] "m1").2.1
      = [⟨"m1", "", Metadata.mk none none (some "low") none none none none
          (some "2025-01-01T00:00:00") none none none⟩] ∧
    (enhanceMemoryQuality (joinSep ",") "2025-01-02T00:00:00" (fun _ => false)
        [⟨"m1", "", Metadata.mk none none (some "low") none none none none
          (some "2025-01-01T00:00:00") none none none⟩] "m1").2.1
      = [⟨"m1", "", Metadata.mk none none (some "low") none none none none
          (some "2025-01-02T00:00:00") none none none⟩] := by
  constructor <;> rfl

/-- C7 (amended).  Calling `enhance_memory_quality` twice on the same
resolvable id leaves the three derived fields — `title`,
`technologies`, `complexity` — unchanged the second time: the second
call issues an update whose record agrees with the first on all three
(only the `enhanced_at` stamp is refreshed). -/
theorem enhanceMemoryQuality_twice_preserves_derived
    (dumps : List String → String) (n1 n2 : String) (uf : String → Bool)
    (s : Store) (memoryId : String) (e : Entry)
    (hfind : s.find? (fun x => decide (x.id = memoryId)) = some e)
    (huf : uf memoryId = false) :
    (enhanceMemoryQuality dumps n2 uf
        (enhanceMemoryQuality dumps n1 uf s memoryId).2.1 memoryId).2.2
      = [Ev.updateMeta memoryId (enhanceMeta dumps n2 e.content
          (enhanceMeta dumps n1 e.content e.metadata))] ∧
    (enhanceMeta dumps n2 e.content (enhanceMeta dumps n1 e.content
        e.metadata)).title
      = (enhanceMeta dumps n1 e.content e.metadata).title ∧
    (enhanceMeta dumps n2 e.content (enhanceMeta dumps n1 e.content
        e.metadata)).technologies
      = (enhanceMeta dumps n1 e.content e.metadata).technologies ∧
    (enhanceMeta dumps n2 e.content (enhanceMeta dumps n1 e.content
        e.metadata)).complexity
      = (enhanceMeta dumps n1 e.content e.metadata).complexity := by
  have hrun1 := enhanceMemoryQuality_run dumps n1 uf s memoryId e hfind huf
  have hfind2 := find?_updateMetaInStore s memoryId
    (enhanceMeta dumps n1 e.content e.metadata) e hfind
  have hrun2 := enhanceMemoryQuality_run dumps n2 uf
    (updateMetaInStore s memoryId (enhanceMeta dumps n1 e.content e.metadata))
    memoryId { e with metadata := enhanceMeta dumps n1 e.content e.metadata }
    hfind2 huf
  obtain ⟨ht, htech, hcx⟩ := enhanceMeta_stable_fields dumps n1 n2 e.content
    e.metadata
  refine ⟨?_, ht, htech, hcx⟩
  rw [hrun1]
  show (enhanceMemoryQuality dumps n2 uf
    (updateMetaInStore s memoryId (enhanceMeta dumps n1 e.content e.metadata))
    memoryId).2.2 = _
  rw [hrun2]

/-- Witness for C7 (amended) on a memory with content long enough to
derive a title and technologies. -/
theorem enhanceMemoryQuality_twice_preserves_derived_witness :
    (enhanceMeta (joinSep ",") "2025-01-02T00:00:00"
        "using python for scripting"
        (enhanceMeta (joinSep ",") "2025-01-01T00:00:00"
          "using python for scripting" {})).complexity
      = (enhanceMeta (joinSep ",") "2025-01-01T00:00:00"
          "using python for scripting" {}).complexity :=
  (enhanceMemoryQuality_twice_preserves_derived (joinSep ",")
    "2025-01-01T00:00:00" "2025-01-02T00:00:00" (fun _ => false)
    [⟨"m", "using python for scripting", {}⟩] "m"
    ⟨"m", "using python for scripting", {}⟩ (by decide) rfl).2.2.2

/-- Output of the enhancement phase of `auto_curate`. -/
structure EnhLoopOut where
  store : Store
  trace : List Ev
  count : Nat
  deriving Repr, DecidableEq

/-- The enhancement loop of `auto_curate`: walk the (already truncated)
metadata snapshot; for each memory whose quality score — computed with
an empty content standing in for the document — is below 0.5, and only
outside dry-run, call `enhance_memory_quality` on the live store and
count the attempt; the `try/except` swallows any failure, so the loop
always proceeds to the next memory. -/
def autoCurateEnhanceLoop (dumps : List String → String) (nowIso : String)
    (uf : String → Bool) (dryRun : Bool) :
    List Entry → Store → EnhLoopOut
  | [], s => ⟨s, [], 0⟩
  | m :: rest, s =>
    if calculateMemoryQualityScore ⟨m.id, "", m.metadata⟩ < 0.5 ∧
        dryRun = false then
      ⟨(autoCurateEnhanceLoop dumps nowIso uf dryRun rest
          (enhanceMemoryQuality dumps nowIso uf s m.id).2.1).store,
        (enhanceMemoryQuality dumps nowIso uf s m.id).2.2
          ++ (autoCurateEnhanceLoop dumps nowIso uf dryRun rest
            (enhanceMemoryQuality dumps nowIso uf s m.id).2.1).trace,
        (autoCurateEnhanceLoop dumps nowIso uf dryRun rest
          (enhanceMemoryQuality dumps nowIso uf s m.id).2.1).count + 1⟩
    else autoCurateEnhanceLoop dumps nowIso uf dryRun rest s

/-- Return payload of `auto_curate` (the counts behind its action log). -/
structure AutoCurateResult where
  dedup_found : Nat
  archive_found : Nat
  enhanced_count : Nat
  dry_run : Bool
  deriving Repr, DecidableEq

/-- `auto_curate` of `memory_curation_api.py`: deduplicate, then archive
with a 180-day threshold, then the enhancement loop over the first 20
memories of the resulting collection snapshot. -/
def autoCurate (hash : String → String) (parse : String → Option Int)
    (now : Int) (nowDateStr : String) (dumps : List String → String)
    (nowIso : String) (uf : String → Bool) (dryRun : Bool) (s : Store) :
    AutoCurateResult × Store × List Ev :=
  (⟨(deduplicateMemories hash dryRun s).1.duplicates_found,
      (archiveOldMemories parse now nowDateStr 180 dryRun
        (deduplicateMemories hash dryRun s).2.1).1.found,
      (autoCurateEnhanceLoop dumps nowIso uf dryRun
        (((archiveOldMemories parse now nowDateStr 180 dryRun
          (deduplicateMemories hash dryRun s).2.1).2.1).take 20)
        ((archiveOldMemories parse now nowDateStr 180 dryRun
          (deduplicateMemories hash dryRun s).2.1).2.1)).count,
      dryRun⟩,
    (autoCurateEnhanceLoop dumps nowIso uf dryRun
      (((archiveOldMemories parse now nowDateStr 180 dryRun
        (deduplicateMemories hash dryRun s).2.1).2.1).take 20)
      ((archiveOldMemories parse now nowDateStr 180 dryRun
        (deduplicateMemories hash dryRun s).2.1).2.1)).store,
    (deduplicateMemories hash dryRun s).2.2
      ++ (archiveOldMemories parse now nowDateStr 180 dryRun
          (deduplicateMemories hash dryRun s).2.1).2.2
      ++ (autoCurateEnhanceLoop dumps nowIso uf dryRun
          (((archiveOldMemories parse now nowDateStr 180 dryRun
            (deduplicateMemories hash dryRun s).2.1).2.1).take 20)
          ((archiveOldMemories parse now nowDateStr 180 dryRun
            (deduplicateMemories hash dryRun s).2.1).2.1)).trace)

lemma dedup_dryRun_frame (hash : String → String) (s : Store) :
    (deduplicateMemories hash true s).2.1 = s ∧
    (deduplicateMemories hash true s).2.2 = [] := by
  unfold deduplicateMemories
  split
  · exact ⟨rfl, rfl⟩
  · simp

lemma archive_dryRun_frame (parse : String → Option Int) (now : Int)
    (nds : String) (T : Int) (s : Store) :
    (archiveOldMemories parse now nds T true s).2.1 = s ∧
    (archiveOldMemories parse now nds T true s).2.2 = [] := by
  unfold archiveOldMemories
  split
  · exact ⟨rfl, rfl⟩
  · split
    · rename_i hcond
      simp at hcond
    · exact ⟨rfl, rfl⟩

lemma enhanceLoop_dryRun (dumps : List String → String) (ni : String)
    (uf : String → Bool) (l : List Entry) (s : Store) :
    autoCurateEnhanceLoop dumps ni uf true l s = ⟨s, [], 0⟩ := by
  induction l with
  | nil => rfl
  | cons m rest ih =>
    show (if calculateMemoryQualityScore ⟨m.id, "", m.metadata⟩ < 0.5 ∧
        true = false then _ else autoCurateEnhanceLoop dumps ni uf true rest s)
      = _
    rw [if_neg (by simp)]
    exact ih

lemma enhanceLoop_count_false (dumps : List String → String) (ni : String)
    (uf : String → Bool) (l : List Entry) :
    ∀ s : Store, (autoCurateEnhanceLoop dumps ni uf false l s).count
      = l.countP (fun m =>
          decide (calculateMemoryQualityScore ⟨m.id, "", m.metadata⟩ < 0.5)) := by
  induction l with
  | nil => intro s; rfl
  | cons m rest ih =>
    intro s
    simp only [autoCurateEnhanceLoop]
    split_ifs with hc
    · show (autoCurateEnhanceLoop dumps ni uf false rest
        (enhanceMemoryQuality dumps ni uf s m.id).2.1).count + 1 = _
      rw [ih, List.countP_cons]
      simp [hc.1]
    · have hm : ¬ calculateMemoryQualityScore ⟨m.id, "", m.metadata⟩ < 0.5 :=
        fun h => hc ⟨h, by trivial⟩
      rw [ih, List.countP_cons]
      simp [hm]

/-- When no processed memory scores below the threshold (or in dry-run),
the enhancement loop touches nothing. -/
lemma enhanceLoop_no_candidates (dumps : List String → String) (ni : String)
    (uf : String → Bool) (dr : Bool) (l : List Entry) (s : Store)
    (h : ∀ m ∈ l, ¬ calculateMemoryQualityScore ⟨m.id, "", m.metadata⟩ < 0.5) :
    autoCurateEnhanceLoop dumps ni uf dr l s = ⟨s, [], 0⟩ := by
  induction l with
  | nil => rfl
  | cons m rest ih =>
    simp only [autoCurateEnhanceLoop]
    rw [if_neg (fun hc => h m (List.mem_cons_self m rest) hc.1)]
    exact ih (fun x hx => h x (List.mem_cons_of_mem m hx))

/-- A metadata record that scores 0.55 with an empty content: truthy
non-placeholder title, technologies, complexity and source, no date. -/
def mdRich : Metadata :=
  ⟨some "T", some "[py]", some "low", none, none, some "claude_code",
    none, none, none, none, none⟩

/-- A 21-memory store: twenty 0.55-scoring memories in collection order
followed by one empty memory scoring 0.  All contents distinct, no dates. -/
def store21 : Store :=
  [⟨"m1", "c1", mdRich⟩, ⟨"m2", "c2", mdRich⟩, ⟨"m3", "c3", mdRich⟩,
   ⟨"m4", "c4", mdRich⟩, ⟨"m5", "c5", mdRich⟩, ⟨"m6", "c6", mdRich⟩,
   ⟨"m7", "c7", mdRich⟩, ⟨"m8", "c8", mdRich⟩, ⟨"m9", "c9", mdRich⟩,
   ⟨"m10", "c10", mdRich⟩, ⟨"m11", "c11", mdRich⟩, ⟨"m12", "c12", mdRich⟩,
   ⟨"m13", "c13", mdRich⟩, ⟨"m14", "c14", mdRich⟩, ⟨"m15", "c15", mdRich⟩,
   ⟨"m16", "c16", mdRich⟩, ⟨"m17", "c17", mdRich⟩, ⟨"m18", "c18", mdRich⟩,
   ⟨"m19", "c19", mdRich⟩, ⟨"m20", "c20", mdRich⟩, ⟨"m21", "", {}⟩]

lemma score_mdRich (i : String) :
    ¬ calculateMemoryQualityScore ⟨i, "", mdRich⟩ < 0.5 := by
  have h1 : titleSignal mdRich = true := rfl
  have h2 : truthy mdRich.technologies = true := rfl
  have h3 : truthy mdRich.complexity = true := rfl
  have h4 : (truthy mdRich.date || truthy mdRich.session_date) = false := rfl
  have h5 : truthy mdRich.source = true := rfl
  have h6 : hasCodeBlock "" = false := rfl
  have h7 : contentLengthScore (String.length "") = 0 := rfl
  show ¬ pyMin _ 1 < 0.5
  rw [h7]
  simp only [h1, h2, h3, h4, h5, h6, if_true, if_false, Bool.false_eq_true]
  rw [pyMin]
  norm_num

lemma score_empty_entry (i : String) :
    calculateMemoryQualityScore ⟨i, "", ({} : Metadata)⟩ < 0.5 := by
  have h6 : hasCodeBlock "" = false := rfl
  have h7 : contentLengthScore (String.length "") = 0 := rfl
  show pyMin _ 1 < 0.5
  rw [h7]
  simp only [truthy, titleSignal, h6, Bool.false_and, Bool.false_or,
    Bool.false_eq_true, if_false]
  rw [pyMin]
  norm_num

/-- C8 (counterexample).  A 21-memory store whose first twenty memories
score 0.55 and whose last scores 0: the claim would have the
enhancement step applied to the lowest-scoring sub-0.5 memory `m21`,
but `auto_curate` (non-dry-run) walks only the first twenty ids in
collection order, so nothing at all is enhanced and no store call is
issued. -/
theorem autoCurate_misses_lowest_scoring :
    (autoCurate id (fun _ => none) 0 "20250101" (joinSep ",") "now"
        (fun _ => false) false store21).1.enhanced_count = 0 ∧
    (autoCurate id (fun _ => none) 0 "20250101" (joinSep ",") "now"
        (fun _ => false) false store21).2.2 = [] ∧
    calculateMemoryQualityScore ⟨"m21", "", {}⟩ < 0.5 ∧
    (⟨"m21", "", {}⟩ : Entry) ∈ store21 := by
  have hd : (deduplicateMemories id false store21).2.1 = store21 := by decide
  have hdt : (deduplicateMemories id false store21).2.2 = [] := by decide
  have ha : (archiveOldMemories (fun _ => none) 0 "20250101" 180 false
      store21).2.1 = store21 := by decide
  have hat : (archiveOldMemories (fun _ => none) 0 "20250101" 180 false
      store21).2.2 = [] := by decide
  have hmeta : ∀ m ∈ store21.take 20, m.metadata = mdRich := by decide
  have hcand : ∀ m ∈ store21.take 20,
      ¬ calculateMemoryQualityScore ⟨m.id, "", m.metadata⟩ < 0.5 := by
    intro m hm
    rw [hmeta m hm]
    exact score_mdRich m.id
  refine ⟨?_, ?_, score_empty_entry "m21", by decide⟩
  · show (autoCurateEnhanceLoop (joinSep ",") "now" (fun _ => false) false
      (((archiveOldMemories (fun _ => none) 0 "20250101" 180 false
        (deduplicateMemories id false store21).2.1).2.1).take 20)
      ((archiveOldMemories (fun _ => none) 0 "20250101" 180 false
        (deduplicateMemories id false store21).2.1).2.1)).count = 0
    rw [hd, ha, enhanceLoop_no_candidates _ _ _ _ _ _ hcand]
  · show (deduplicateMemories id false store21).2.2
      ++ (archiveOldMemories (fun _ => none) 0 "20250101" 180 false
          (deduplicateMemories id false store21).2.1).2.2
      ++ (autoCurateEnhanceLoop (joinSep ",") "now" (fun _ => false) false
        (((archiveOldMemories (fun _ => none) 0 "20250101" 180 false
          (deduplicateMemories id false store21).2.1).2.1).take 20)
        ((archiveOldMemories (fun _ => none) 0 "20250101" 180 false
          (deduplicateMemories id false store21).2.1).2.1)).trace = []
    rw [hd, ha, hdt, hat, enhanceLoop_no_candidates _ _ _ _ _ _ hcand]
    rfl

/-- C8 (amended).  `auto_curate` is the fixed pipeline: deduplicate, then
archive at 180 days, then enhancement attempted on exactly those of the
first 20 memories of the resulting collection (in collection order, not
lowest-score order) whose metadata-only quality score is below 0.5.
Dry-run is honored by every step — the store and trace are untouched
and nothing is counted as enhanced — and enhancement failures are
swallowed: the reported count and pipeline progress do not depend on
which update calls fail. -/
theorem autoCurate_pipeline (hash : String → String)
    (parse : String → Option Int) (now : Int) (nds : String)
    (dumps : List String → String) (ni : String) (uf uf' : String → Bool)
    (s : Store) :
    ((autoCurate hash parse now nds dumps ni uf true s).2.1 = s ∧
     (autoCurate hash parse now nds dumps ni uf true s).2.2 = [] ∧
     (autoCurate hash parse now nds dumps ni uf true s).1.enhanced_count = 0) ∧
    ((autoCurate hash parse now nds dumps ni uf false s).1.dedup_found
        = (deduplicateMemories hash false s).1.duplicates_found ∧
     (autoCurate hash parse now nds dumps ni uf false s).1.archive_found
        = (archiveOldMemories parse now nds 180 false
            (deduplicateMemories hash false s).2.1).1.found ∧
     (autoCurate hash parse now nds dumps ni uf false s).1.enhanced_count
        = (((archiveOldMemories parse now nds 180 false
            (deduplicateMemories hash false s).2.1).2.1).take 20).countP
            (fun m => decide
              (calculateMemoryQualityScore ⟨m.id, "", m.metadata⟩ < 0.5))) ∧
    (autoCurate hash parse now nds dumps ni uf false s).1.enhanced_count
      = (autoCurate hash parse now nds dumps ni uf' false s).1.enhanced_count := by
  refine ⟨⟨?_, ?_, ?_⟩, ⟨rfl, rfl, ?_⟩, ?_⟩
  · show (autoCurateEnhanceLoop dumps ni uf true _ _).store = s
    rw [(dedup_dryRun_frame hash s).1, (archive_dryRun_frame parse now nds 180 s).1,
      enhanceLoop_dryRun]
  · show (deduplicateMemories hash true s).2.2
      ++ (archiveOldMemories parse now nds 180 true
          (deduplicateMemories hash true s).2.1).2.2
      ++ (autoCurateEnhanceLoop dumps ni uf true _ _).trace = []
    rw [(dedup_dryRun_frame hash s).1, (dedup_dryRun_frame hash s).2,
      (archive_dryRun_frame parse now nds 180 s).1,
      (archive_dryRun_frame parse now nds 180 s).2, enhanceLoop_dryRun]
    rfl
  · show (autoCurateEnhanceLoop dumps ni uf true _ _).count = 0
    rw [(dedup_dryRun_frame hash s).1, (archive_dryRun_frame parse now nds 180 s).1,
      enhanceLoop_dryRun]
  · exact enhanceLoop_count_false dumps ni uf _ _
  · show (autoCurateEnhanceLoop dumps ni uf false _ _).count
      = (autoCurateEnhanceLoop dumps ni uf' false _ _).count
    rw [enhanceLoop_count_false, enhanceLoop_count_false]

end AIVectorMemory
